import Mathlib

/-!
Verification of the numerical core of `cleanmarl/mappo_mpe.py` (a MAPPO
training script): generalized advantage estimation (GAE), value/return
normalization, the KL-based early-stopping epoch loop, episode statistics,
the explained-variance diagnostic and value-loss clipping.

Python float tensors are modelled by exact field elements (`ℚ`, or `ℝ` where
a square root occurs); elementwise tensor operations become operations on
lists (one entry per timestep, for a fixed slot) or on functions out of
`Fin n` (one entry per environment-agent slot).
-/

namespace MappoMpe

/-- Arithmetic mean of a list (`tensor.mean()` / `np.mean`).  Division by
zero yields `0` for the empty list; the code never takes the mean of an
empty batch. -/
def listMean {K : Type*} [Field K] (l : List K) : K := l.sum / (l.length : K)

/-- Backward GAE pass of `mappo_mpe.py` lines 266-276, for one slot.  The
inputs are the per-step lists `rewards`, `values`, `dones` (front = step 0),
the bootstrap value `Vb` (`next_value`) and bootstrap done flag `db`
(`next_done`).  The result bundles the advantage list together with the
state the loop carries while walking backwards: `lastgaelam`, and the
`nextvalues` / `nextdone` that apply to the step in front of the current
head (the head's own `value`/`done` once we have processed it, or the
bootstrap pair for the empty suffix). -/
def gaeAux {K : Type*} [Field K] (γ lam Vb db : K) :
    List K → List K → List K → List K × K × K × K
  | r :: rs, v :: vs, d :: ds =>
    let rest := gaeAux γ lam Vb db rs vs ds
    let delta := r + γ * rest.2.2.1 * (1 - rest.2.2.2) - v
    let adv := delta + γ * lam * (1 - rest.2.2.2) * rest.2.1
    (adv :: rest.1, adv, v, d)
  | _, _, _ => ([], 0, Vb, db)

/-- Advantage table produced by the backward GAE loop (lines 266-276). -/
def gaeAdvantages {K : Type*} [Field K] (γ lam : K)
    (rewards values dones : List K) (Vb db : K) : List K :=
  (gaeAux γ lam Vb db rewards values dones).1

/-- Line 277: `returns = advantages + values` (elementwise). -/
def gaeReturns {K : Type*} [Field K] (γ lam : K)
    (rewards values dones : List K) (Vb db : K) : List K :=
  List.zipWith (· + ·) (gaeAdvantages γ lam rewards values dones Vb db) values

/-- Modelled from the spec: standard discounted return-to-go, bootstrapped
with `Vb` and cut at done flags —
`rtg[t] = reward[t] + γ * (1 - nextdone) * rtg[t+1]` with `rtg` continued by
the bootstrap value after the last step.  The second and third components
carry the return and done flag of the step in front of the current head. -/
def rtgAux {K : Type*} [Field K] (γ Vb db : K) :
    List K → List K → List K × K × K
  | r :: rs, d :: ds =>
    let rest := rtgAux γ Vb db rs ds
    let rt := r + γ * (1 - rest.2.2) * rest.2.1
    (rt :: rest.1, rt, d)
  | _, _ => ([], Vb, db)

/-- Modelled from the spec: the discounted return-to-go list. -/
def rtgList {K : Type*} [Field K] (γ : K) (rewards dones : List K)
    (Vb db : K) : List K :=
  (rtgAux γ Vb db rewards dones).1

/-- Modelled from the spec: one-step TD errors
`delta[t] = reward[t] + γ * nextvalue * (1 - nextdone) - value[t]`, with the
same bootstrap convention as the GAE loop. -/
def tdAux {K : Type*} [Field K] (γ Vb db : K) :
    List K → List K → List K → List K × K × K
  | r :: rs, v :: vs, d :: ds =>
    let rest := tdAux γ Vb db rs vs ds
    ((r + γ * rest.2.1 * (1 - rest.2.2) - v) :: rest.1, v, d)
  | _, _, _ => ([], Vb, db)

/-- Modelled from the spec: the list of one-step TD errors. -/
def tdList {K : Type*} [Field K] (γ : K) (rewards values dones : List K)
    (Vb db : K) : List K :=
  (tdAux γ Vb db rewards values dones).1

/-- Return Normalizer accumulators (lines 217-219): `running_mean`,
`running_mean_sq`, `debiasing_term`, all starting at zero. -/
structure NormState (K : Type*) where
  running_mean : K
  running_mean_sq : K
  debiasing_term : K

/-- Line 220 / 325: `mean = running_mean / debiasing_term.clamp(min=1e-5)`. -/
def nsMean {K : Type*} [LinearOrderedField K] (st : NormState K) : K :=
  st.running_mean / max st.debiasing_term (1 / 100000)

/-- Line 221 / 326: `mean_sq = running_mean_sq / debiasing_term.clamp(min=1e-5)`. -/
def nsMeanSq {K : Type*} [LinearOrderedField K] (st : NormState K) : K :=
  st.running_mean_sq / max st.debiasing_term (1 / 100000)

/-- Line 222 / 327: `var = (mean_sq - mean ** 2).clamp(min=1e-2)`. -/
def nsVar {K : Type*} [LinearOrderedField K] (st : NormState K) : K :=
  max (nsMeanSq st - nsMean st ^ 2) (1 / 100)

/-- Lines 322-324: one EWA update of the accumulators from a batch mean and
a batch mean of squares. -/
def nsUpdate {K : Type*} [Field K] (ewa batchMean batchSqMean : K)
    (st : NormState K) : NormState K :=
  { running_mean := ewa * st.running_mean + (1 - ewa) * batchMean
    running_mean_sq := ewa * st.running_mean_sq + (1 - ewa) * batchSqMean
    debiasing_term := ewa * st.debiasing_term + (1 - ewa) * 1 }

/-- Lines 322-324 applied to a raw-return minibatch `b_returns[mb_inds]`:
the batch mean is `.mean()` and the squared batch mean is
`(batch ** 2).mean()`. -/
def nsUpdateBatch {K : Type*} [Field K] (ewa : K) (batch : List K)
    (st : NormState K) : NormState K :=
  nsUpdate ewa (listMean batch) (listMean (batch.map fun x => x ^ 2)) st

/-- The normalizer state after `n` repeated updates from the all-zero state,
each using a batch of `m` copies of the constant `c`. -/
def iterUpdateConst {K : Type*} [Field K] (ewa c : K) (m : ℕ) :
    ℕ → NormState K
  | 0 => ⟨0, 0, 0⟩
  | n + 1 => nsUpdateBatch ewa (List.replicate m c) (iterUpdateConst ewa c m n)

/-- Normalizer states reachable from the all-zero initial state (lines
217-219) by any sequence of minibatch updates. -/
inductive NsReachable (ewa : ℝ) : NormState ℝ → Prop
  | zero : NsReachable ewa ⟨0, 0, 0⟩
  | step (st : NormState ℝ) (batch : List ℝ) :
      NsReachable ewa st → NsReachable ewa (nsUpdateBatch ewa batch st)

/-- Line 329: `target_values = (b_returns[mb_inds] - mean) / torch.sqrt(var)`. -/
noncomputable def nsNormalize (st : NormState ℝ) (x : ℝ) : ℝ :=
  (x - nsMean st) / Real.sqrt (nsVar st)

/-- Lines 264-265: `values * torch.sqrt(var) + mean` applied to a scalar. -/
noncomputable def nsDenormalize (st : NormState ℝ) (y : ℝ) : ℝ :=
  y * Real.sqrt (nsVar st) + nsMean st

/-- Lines 261-276 for one slot: the advantage computation of one iteration.
When `useNorm` is set (`args.use_value_normalization`), the stored values
and the bootstrap value are first mapped through
`v * torch.sqrt(var) + mean` (lines 264-265), and only then does the
backward GAE loop run. -/
noncomputable def computeAdvantagesCode (useNorm : Bool) (st : NormState ℝ) (γ lam : ℝ)
    (rewards values dones : List ℝ) (Vb db : ℝ) : List ℝ :=
  let values2 := if useNorm then
      values.map fun v => v * Real.sqrt (nsVar st) + nsMean st
    else values
  let Vb2 := if useNorm then Vb * Real.sqrt (nsVar st) + nsMean st else Vb
  gaeAdvantages γ lam rewards values2 dones Vb2 db

/-- Lines 261-277 for one slot: the returns computed by one iteration,
`returns = advantages + values` with `values` as of line 277 (that is, the
denormalized values when normalization is on). -/
noncomputable def computeReturnsCode (useNorm : Bool) (st : NormState ℝ) (γ lam : ℝ)
    (rewards values dones : List ℝ) (Vb db : ℝ) : List ℝ :=
  let values2 := if useNorm then
      values.map fun v => v * Real.sqrt (nsVar st) + nsMean st
    else values
  let Vb2 := if useNorm then Vb * Real.sqrt (nsVar st) + nsMean st else Vb
  gaeReturns γ lam rewards values2 dones Vb2 db

/-- Lines 358-359: `if args.target_kl is not None and approx_kl > args.target_kl:
break`. -/
def klStop (target : Option ℚ) (k : ℚ) : Bool :=
  match target with
  | none => false
  | some τ => decide (τ < k)

/-- The minibatch indices processed by one epoch `e`: the inner loop of
lines 294-296 visits every minibatch `0, …, M-1`, with no break inside. -/
def epochMinibatches (M e : ℕ) : List (ℕ × ℕ) :=
  (List.range M).map fun j => (e, j)

/-- The trace of `n` complete epochs. -/
def fullEpochs (M n : ℕ) : List (ℕ × ℕ) :=
  (List.range n).flatMap fun e => epochMinibatches M e

/-- Lines 292-359, abstracted: the epoch loop starting at epoch `e` with
`fuel` epochs left.  `kl e j` is the approximate KL computed (no-grad, line
305) on minibatch `j` of epoch `e`; after each epoch the loop checks the
value left by the LAST minibatch, `kl e (M-1)`, and breaks when it exceeds
the configured target.  The result is the list of `(epoch, minibatch)`
pairs processed. -/
def ppoGo (target : Option ℚ) (kl : ℕ → ℕ → ℚ) (M : ℕ) :
    ℕ → ℕ → List (ℕ × ℕ)
  | _, 0 => []
  | e, fuel + 1 =>
    epochMinibatches M e ++
      (if klStop target (kl e (M - 1)) then []
       else ppoGo target kl M (e + 1) fuel)

/-- The full epoch loop of one iteration: `for epoch in range(update_epochs)`
with the early-stop check of lines 358-359. -/
def ppoEpochTrace (target : Option ℚ) (kl : ℕ → ℕ → ℚ) (M E : ℕ) :
    List (ℕ × ℕ) :=
  ppoGo target kl M 0 E

/-- Population variance `np.var` (ddof = 0). -/
def popVar (l : List ℚ) : ℚ :=
  listMean (l.map fun x => (x - listMean l) ^ 2)

/-- Lines 361-363: `explained_var = np.nan if var_y == 0 else
1 - np.var(y_true - y_pred) / var_y` with `y_true = b_returns`,
`y_pred = b_values`.  `none` stands for the logged NaN. -/
def explainedVar (returns values : List ℚ) : Option ℚ :=
  let vy := popVar returns
  if vy = 0 then none
  else some (1 - popVar (List.zipWith (· - ·) returns values) / vy)

/-- Numpy implicit bool-to-float coercion used in `episode_rewards * next_done`. -/
def flagQ (b : Bool) : ℚ := if b then 1 else 0

/-- Episode accumulators (lines 213-214): per-slot running reward and length
sums. -/
structure EpState (N : ℕ) where
  rew : Fin N → ℚ
  len : Fin N → ℚ

/-- One environment step's worth of accumulator bookkeeping, lines 233 and
249-256: `episode_lengths += 1` (before the step), `episode_rewards +=
reward` (after the step), then, if `np.any(next_done)`, log
`np.mean(episode_rewards * next_done)` and `np.mean(episode_lengths *
next_done)` and zero the flagged slots.  The second component is the logged
(reward-summary, length-summary) pair, `none` when nothing was flushed. -/
def epStep {N : ℕ} (st : EpState N) (reward : Fin N → ℚ) (nd : Fin N → Bool) :
    EpState N × Option (ℚ × ℚ) :=
  let len1 : Fin N → ℚ := fun i => st.len i + 1
  let rew1 : Fin N → ℚ := fun i => st.rew i + reward i
  if ∃ i, nd i = true then
    (⟨fun i => if nd i then 0 else rew1 i, fun i => if nd i then 0 else len1 i⟩,
      some ((∑ i, rew1 i * flagQ (nd i)) / (N : ℚ),
        (∑ i, len1 i * flagQ (nd i)) / (N : ℚ)))
  else (⟨rew1, len1⟩, none)

/-- `torch.clamp(x, lo, hi)`. -/
def torchClamp (x lo hi : ℚ) : ℚ := min (max x lo) hi

/-- Lines 189-192: `a = (abs(e) <= d).float(); b = (abs(e) > d).float();
a * e ** 2 / 2 + b * d * (abs(e) - d / 2)`. -/
def huber_loss (e d : ℚ) : ℚ :=
  (if |e| ≤ d then (1 : ℚ) else 0) * e ^ 2 / 2 +
    (if d < |e| then (1 : ℚ) else 0) * d * (|e| - d / 2)

/-- Lines 334 / 342: the elementwise value loss applied to an error `e`,
Huber when `use_huber_loss` is set, else `0.5 * e ** 2`. -/
def vLossElem (useHuber : Bool) (d e : ℚ) : ℚ :=
  if useHuber then huber_loss e d else 1 / 2 * e ^ 2

/-- Lines 336-340: `v_clipped = target_values + torch.clamp(newvalue -
target_values, -clip_coef, clip_coef)`. -/
def vClipped (target newvalue c : ℚ) : ℚ :=
  target + torchClamp (newvalue - target) (-c) c

/-- Line 344: the logged value-clip fraction of one minibatch — the mean of
the indicator `v_loss_clipped > v_loss_unclipped` over the elements, each
element a `(newvalue, target)` pair. -/
def valueClipFrac (useHuber : Bool) (d c : ℚ) (elems : List (ℚ × ℚ)) : ℚ :=
  listMean (elems.map fun p =>
    if vLossElem useHuber d (vClipped p.2 p.1 c - p.2) >
        vLossElem useHuber d (p.1 - p.2) then (1 : ℚ) else 0)

theorem gaeAux_fst_length {K : Type*} [Field K] (γ lam Vb db : K) :
    ∀ rw vl dn : List K, vl.length = rw.length → dn.length = rw.length →
      (gaeAux γ lam Vb db rw vl dn).1.length = rw.length := by
  intro rw
  induction rw with
  | nil => intro vl dn hv hd; simp [gaeAux]
  | cons r rs ih =>
    intro vl dn hv hd
    cases vl with
    | nil => simp at hv
    | cons v vs =>
      cases dn with
      | nil => simp at hd
      | cons d ds =>
        simp only [gaeAux, List.length_cons, Nat.add_right_cancel_iff]
        exact ih vs ds (by simpa using hv) (by simpa using hd)

theorem zipWith_add_getD {K : Type*} [Field K] :
    ∀ (a b : List K) (t : ℕ), t < a.length → t < b.length →
      (List.zipWith (· + ·) a b).getD t 0 = a.getD t 0 + b.getD t 0 := by
  intro a
  induction a with
  | nil => intro b t ht _; simp at ht
  | cons x xs ih =>
    intro b t ht hb
    cases b with
    | nil => simp at hb
    | cons y ys =>
      cases t with
      | zero => simp
      | succ t2 =>
        simp only [List.zipWith_cons_cons, List.getD_cons_succ]
        exact ih ys t2 (by simpa using ht) (by simpa using hb)

theorem gaeAux_getD_rec {K : Type*} [Field K] (γ lam Vb db : K) :
    ∀ rw vl dn : List K, vl.length = rw.length → dn.length = rw.length →
      ∀ t, t < rw.length →
        (gaeAux γ lam Vb db rw vl dn).1.getD t 0 =
          (rw.getD t 0 +
              γ * (if t + 1 = rw.length then Vb else vl.getD (t + 1) 0) *
                (1 - (if t + 1 = rw.length then db else dn.getD (t + 1) 0)) -
              vl.getD t 0) +
            γ * lam * (1 - (if t + 1 = rw.length then db else dn.getD (t + 1) 0)) *
              (if t + 1 = rw.length then 0
               else (gaeAux γ lam Vb db rw vl dn).1.getD (t + 1) 0) := by
  intro rw
  induction rw with
  | nil => intro vl dn _ _ t ht; simp at ht
  | cons r rs ih =>
    intro vl dn hv hd t ht
    cases vl with
    | nil => simp at hv
    | cons v vs =>
    cases dn with
    | nil => simp at hd
    | cons d ds =>
    have hv2 : vs.length = rs.length := by simpa using hv
    have hd2 : ds.length = rs.length := by simpa using hd
    cases t with
    | zero =>
      cases rs with
      | nil =>
        cases vs with
        | nil =>
          cases ds with
          | nil => simp [gaeAux]
          | cons d2 ds2 => simp at hd2
        | cons v2 vs2 => simp at hv2
      | cons r2 rs2 =>
        cases vs with
        | nil => simp at hv2
        | cons v2 vs2 =>
        cases ds with
        | nil => simp at hd2
        | cons d2 ds2 =>
          have hc : ¬(0 + 1 = (r :: r2 :: rs2).length) := by simp
          simp [gaeAux, hc]
    | succ t2 =>
      have ht2 : t2 < rs.length := by simpa using ht
      have hrec := ih vs ds hv2 hd2 t2 ht2
      simp only [gaeAux, List.getD_cons_succ, List.length_cons,
        Nat.add_right_cancel_iff]
      exact hrec

/-- C1: the advantage table produced by the backward pass (lines 266-276)
satisfies the spec's recursion — for every `t < T`,
`advantage[t] = delta[t] + γ·λ·(1 - nextdone)·carry` with
`delta[t] = reward[t] + γ·nextvalue·(1 - nextdone) - value[t]`, where
`nextvalue`/`nextdone` are the bootstrap pair at `t = T-1` and
`value[t+1]`/`done[t+1]` otherwise, and the carry is `advantage[t+1]`
(`0` at `t = T-1`); moreover `return[t] = advantage[t] + value[t]`.  On the
concrete scenario (`γ = 0.99`, `λ = 0.95`, rewards `[1, 2]`, values
`[0.5, 0.5]`, dones `[0, 0]`, bootstrap value `0`, bootstrap done `1`) the
advantages are `[2.40575, 1.5]` and the returns `[2.90575, 2]`. -/
theorem claims_C1 :
    (∀ (γ lam Vb db : ℚ) (rw vl dn : List ℚ),
        vl.length = rw.length → dn.length = rw.length →
        ∀ t, t < rw.length →
          (gaeAdvantages γ lam rw vl dn Vb db).getD t 0 =
            (rw.getD t 0 +
                γ * (if t + 1 = rw.length then Vb else vl.getD (t + 1) 0) *
                  (1 - (if t + 1 = rw.length then db else dn.getD (t + 1) 0)) -
                vl.getD t 0) +
              γ * lam *
                (1 - (if t + 1 = rw.length then db else dn.getD (t + 1) 0)) *
                (if t + 1 = rw.length then 0
                 else (gaeAdvantages γ lam rw vl dn Vb db).getD (t + 1) 0) ∧
          (gaeReturns γ lam rw vl dn Vb db).getD t 0 =
            (gaeAdvantages γ lam rw vl dn Vb db).getD t 0 + vl.getD t 0) ∧
    gaeAdvantages (99/100 : ℚ) (95/100) [1, 2] [1/2, 1/2] [0, 0] 0 1 =
      [9623/4000, 3/2] ∧
    gaeReturns (99/100 : ℚ) (95/100) [1, 2] [1/2, 1/2] [0, 0] 0 1 =
      [11623/4000, 2] := by
  refine ⟨?_, ?_, ?_⟩
  · intro γ lam Vb db rw vl dn hv hd t ht
    constructor
    · exact gaeAux_getD_rec γ lam Vb db rw vl dn hv hd t ht
    · exact zipWith_add_getD _ vl t
        (by rw [gaeAdvantages, gaeAux_fst_length γ lam Vb db rw vl dn hv hd]
            exact ht)
        (by rw [hv]; exact ht)
  · norm_num [gaeAdvantages, gaeAux]
  · norm_num [gaeReturns, gaeAdvantages, gaeAux]

/-- Witness for C1: the general recursion applied at `t = 0` of the concrete
scenario. -/
theorem claims_C1_witness :
    (([(1:ℚ)/2, 1/2] : List ℚ).length = ([(1:ℚ), 2] : List ℚ).length ∧
      ([(0:ℚ), 0] : List ℚ).length = ([(1:ℚ), 2] : List ℚ).length ∧
      0 < ([(1:ℚ), 2] : List ℚ).length) ∧
    ((gaeAdvantages (99/100 : ℚ) (95/100) [1, 2] [1/2, 1/2] [0, 0] 0 1).getD 0 0 =
        (([(1:ℚ), 2] : List ℚ).getD 0 0 +
            99/100 *
              (if 0 + 1 = ([(1:ℚ), 2] : List ℚ).length then (0:ℚ)
               else ([(1:ℚ)/2, 1/2] : List ℚ).getD (0 + 1) 0) *
              (1 - (if 0 + 1 = ([(1:ℚ), 2] : List ℚ).length then (1:ℚ)
                    else ([(0:ℚ), 0] : List ℚ).getD (0 + 1) 0)) -
            ([(1:ℚ)/2, 1/2] : List ℚ).getD 0 0) +
          99/100 * (95/100) *
            (1 - (if 0 + 1 = ([(1:ℚ), 2] : List ℚ).length then (1:ℚ)
                  else ([(0:ℚ), 0] : List ℚ).getD (0 + 1) 0)) *
            (if 0 + 1 = ([(1:ℚ), 2] : List ℚ).length then 0
             else (gaeAdvantages (99/100 : ℚ) (95/100) [1, 2] [1/2, 1/2]
                [0, 0] 0 1).getD (0 + 1) 0) ∧
      (gaeReturns (99/100 : ℚ) (95/100) [1, 2] [1/2, 1/2] [0, 0] 0 1).getD 0 0 =
        (gaeAdvantages (99/100 : ℚ) (95/100) [1, 2] [1/2, 1/2]
            [0, 0] 0 1).getD 0 0 +
          ([(1:ℚ)/2, 1/2] : List ℚ).getD 0 0) :=
  ⟨⟨rfl, rfl, by norm_num⟩,
    claims_C1.1 (99/100) (95/100) 0 1 [1, 2] [1/2, 1/2] [0, 0] rfl rfl 0
      (by norm_num)⟩

theorem rtgAux_fst_length {K : Type*} [Field K] (γ Vb db : K) :
    ∀ rw dn : List K, dn.length = rw.length →
      (rtgAux γ Vb db rw dn).1.length = rw.length := by
  intro rw
  induction rw with
  | nil => intro dn hd; simp [rtgAux]
  | cons r rs ih =>
    intro dn hd
    cases dn with
    | nil => simp at hd
    | cons d ds =>
      simp only [rtgAux, List.length_cons, Nat.add_right_cancel_iff]
      exact ih ds (by simpa using hd)

theorem gaeAux_lam_one {K : Type*} [Field K] (γ Vb db : K) :
    ∀ rw vl dn : List K, vl.length = rw.length → dn.length = rw.length →
      (gaeAux γ 1 Vb db rw vl dn).1 =
        List.zipWith (· - ·) (rtgAux γ Vb db rw dn).1 vl ∧
      (gaeAux γ 1 Vb db rw vl dn).2.2.1 + (gaeAux γ 1 Vb db rw vl dn).2.1 =
        (rtgAux γ Vb db rw dn).2.1 ∧
      (gaeAux γ 1 Vb db rw vl dn).2.2.2 = (rtgAux γ Vb db rw dn).2.2 := by
  intro rw
  induction rw with
  | nil =>
    intro vl dn hv hd
    cases vl with
    | nil =>
      cases dn with
      | nil => refine ⟨rfl, by simp [gaeAux, rtgAux], rfl⟩
      | cons d ds => simp at hd
    | cons v vs => simp at hv
  | cons r rs ih =>
    intro vl dn hv hd
    cases vl with
    | nil => simp at hv
    | cons v vs =>
    cases dn with
    | nil => simp at hd
    | cons d ds =>
    obtain ⟨h1, h2, h3⟩ := ih vs ds (by simpa using hv) (by simpa using hd)
    simp only [gaeAux, rtgAux, List.zipWith_cons_cons, List.cons.injEq]
    refine ⟨⟨?_, h1⟩, ?_, trivial⟩
    · rw [h3]
      linear_combination (γ * (1 - (rtgAux γ Vb db rs ds).2.2)) * h2
    · rw [h3]
      linear_combination (γ * (1 - (rtgAux γ Vb db rs ds).2.2)) * h2

theorem gaeAux_lam_zero {K : Type*} [Field K] (γ Vb db : K) :
    ∀ rw vl dn : List K,
      (gaeAux γ 0 Vb db rw vl dn).1 = (tdAux γ Vb db rw vl dn).1 ∧
      (gaeAux γ 0 Vb db rw vl dn).2.2.1 = (tdAux γ Vb db rw vl dn).2.1 ∧
      (gaeAux γ 0 Vb db rw vl dn).2.2.2 = (tdAux γ Vb db rw vl dn).2.2 := by
  intro rw
  induction rw with
  | nil => intro vl dn; exact ⟨rfl, rfl, rfl⟩
  | cons r rs ih =>
    intro vl dn
    cases vl with
    | nil => exact ⟨rfl, rfl, rfl⟩
    | cons v vs =>
    cases dn with
    | nil => exact ⟨rfl, rfl, rfl⟩
    | cons d ds =>
    obtain ⟨h1, h2, h3⟩ := ih vs ds
    simp only [gaeAux, tdAux, List.cons.injEq]
    refine ⟨⟨?_, h1⟩, trivial, trivial⟩
    rw [h2, h3]
    ring

theorem zipWith_sub_add_cancel {K : Type*} [Field K] :
    ∀ a b : List K, a.length ≤ b.length →
      List.zipWith (· + ·) (List.zipWith (· - ·) a b) b = a := by
  intro a
  induction a with
  | nil => intro b _; simp
  | cons x xs ih =>
    intro b hb
    cases b with
    | nil => simp at hb
    | cons y ys =>
      simp only [List.zipWith_cons_cons, List.cons.injEq]
      exact ⟨by ring, ih ys (by simpa using hb)⟩

/-- C3: with `λ = 1` the GAE loop computes exactly the discounted
bootstrapped return-to-go minus the value baseline — so the returns are the
standard discounted returns — and with `λ = 0` it computes the one-step TD
errors. -/
theorem claims_C3 (γ Vb db : ℚ) (rw vl dn : List ℚ)
    (hv : vl.length = rw.length) (hd : dn.length = rw.length) :
    gaeAdvantages γ 1 rw vl dn Vb db =
      List.zipWith (· - ·) (rtgList γ rw dn Vb db) vl ∧
    gaeReturns γ 1 rw vl dn Vb db = rtgList γ rw dn Vb db ∧
    gaeAdvantages γ 0 rw vl dn Vb db = tdList γ rw vl dn Vb db := by
  have h1 := (gaeAux_lam_one γ Vb db rw vl dn hv hd).1
  refine ⟨h1, ?_, (gaeAux_lam_zero γ Vb db rw vl dn).1⟩
  rw [gaeReturns, gaeAdvantages, h1]
  exact zipWith_sub_add_cancel _ vl
    (by rw [rtgAux_fst_length γ Vb db rw dn hd]; omega)

/-- Witness for C3 at a concrete one-step buffer. -/
theorem claims_C3_witness :
    (([(1:ℚ)/2] : List ℚ).length = ([(1:ℚ)] : List ℚ).length ∧
      ([(0:ℚ)] : List ℚ).length = ([(1:ℚ)] : List ℚ).length) ∧
    (gaeAdvantages (1/2 : ℚ) 1 [1] [1/2] [0] 2 1 =
        List.zipWith (· - ·) (rtgList (1/2 : ℚ) [1] [0] 2 1) [1/2] ∧
      gaeReturns (1/2 : ℚ) 1 [1] [1/2] [0] 2 1 = rtgList (1/2 : ℚ) [1] [0] 2 1 ∧
      gaeAdvantages (1/2 : ℚ) 0 [1] [1/2] [0] 2 1 =
        tdList (1/2 : ℚ) [1] [1/2] [0] 2 1) :=
  ⟨⟨rfl, rfl⟩, claims_C3 (1/2) 2 1 [1] [1/2] [0] rfl rfl⟩

/-- C2: with value normalization enabled, one iteration's advantage pass
(lines 261-277) first converts every stored value estimate and the
bootstrap value from normalized space back to raw return space with
`raw = normalized * sqrt(var) + mean` — exactly `nsDenormalize` with the
normalizer's current statistics — and only then runs the GAE recursion on
the raw values; with normalization disabled the stored values are used
unchanged. -/
theorem claims_C2 (st : NormState ℝ) (γ lam : ℝ) (rw vl dn : List ℝ)
    (Vb db : ℝ) :
    computeAdvantagesCode true st γ lam rw vl dn Vb db =
      gaeAdvantages γ lam rw (vl.map (nsDenormalize st)) dn
        (nsDenormalize st Vb) db ∧
    computeReturnsCode true st γ lam rw vl dn Vb db =
      gaeReturns γ lam rw (vl.map (nsDenormalize st)) dn
        (nsDenormalize st Vb) db ∧
    computeAdvantagesCode false st γ lam rw vl dn Vb db =
      gaeAdvantages γ lam rw vl dn Vb db ∧
    computeReturnsCode false st γ lam rw vl dn Vb db =
      gaeReturns γ lam rw vl dn Vb db :=
  ⟨rfl, rfl, rfl, rfl⟩

/-- C4: for a fixed normalizer state whose derived variance is positive,
denormalization inverts normalization exactly (in exact real arithmetic). -/
theorem claims_C4 (st : NormState ℝ) (x : ℝ) (h : 0 < nsVar st) :
    nsDenormalize st (nsNormalize st x) = x := by
  have hs : Real.sqrt (nsVar st) ≠ 0 := ne_of_gt (Real.sqrt_pos.mpr h)
  unfold nsDenormalize nsNormalize
  field_simp

/-- Witness for C4 at the all-zero state (whose derived variance is the
floor `1e-2`) and `x = 3`. -/
theorem claims_C4_witness :
    0 < nsVar (⟨0, 0, 0⟩ : NormState ℝ) ∧
    nsDenormalize (⟨0, 0, 0⟩ : NormState ℝ)
      (nsNormalize (⟨0, 0, 0⟩ : NormState ℝ) 3) = 3 := by
  have h : 0 < nsVar (⟨0, 0, 0⟩ : NormState ℝ) :=
    lt_of_lt_of_le (by norm_num) (le_max_right _ _)
  exact ⟨h, claims_C4 _ 3 h⟩

/-- C6: on every reachable normalizer state, both divisors are strictly
positive: the clamped debiasing term `max(debiasing_term, 1e-5)` (the
divisor of every statistics read) and `sqrt(var)` (the divisor of
`normalize`), where the derived variance is clamped to at least `1e-2`. -/
theorem claims_C6 (ewa : ℝ) (st : NormState ℝ) (h : NsReachable ewa st) :
    0 < max st.debiasing_term (1 / 100000) ∧
    1 / 100 ≤ nsVar st ∧
    0 < Real.sqrt (nsVar st) :=
  ⟨lt_of_lt_of_le (by norm_num) (le_max_right _ _),
    le_max_right _ _,
    Real.sqrt_pos.mpr (lt_of_lt_of_le (by norm_num) (le_max_right _ _))⟩

/-- Witness for C6 at the initial (reachable) all-zero state. -/
theorem claims_C6_witness :
    NsReachable 1 (⟨0, 0, 0⟩ : NormState ℝ) ∧
    (0 < max (⟨0, 0, 0⟩ : NormState ℝ).debiasing_term (1 / 100000) ∧
      1 / 100 ≤ nsVar (⟨0, 0, 0⟩ : NormState ℝ) ∧
      0 < Real.sqrt (nsVar (⟨0, 0, 0⟩ : NormState ℝ))) :=
  ⟨NsReachable.zero, claims_C6 1 _ NsReachable.zero⟩

theorem listMean_replicate (m : ℕ) (c : ℚ) (hm : 1 ≤ m) :
    listMean (List.replicate m c) = c := by
  unfold listMean
  rw [List.sum_replicate, List.length_replicate, nsmul_eq_mul]
  have : (m : ℚ) ≠ 0 := by exact_mod_cast Nat.one_le_iff_ne_zero.mp hm
  field_simp

theorem iterUpdateConst_closed (ewa c : ℚ) (m : ℕ) (hm : 1 ≤ m) :
    ∀ n, iterUpdateConst ewa c m n =
      ⟨c * (1 - ewa ^ n), c ^ 2 * (1 - ewa ^ n), 1 - ewa ^ n⟩ := by
  intro n
  induction n with
  | zero =>
    show (⟨0, 0, 0⟩ : NormState ℚ) = _
    rw [pow_zero]
    norm_num
  | succ n ihn =>
    show nsUpdateBatch ewa (List.replicate m c) (iterUpdateConst ewa c m n) = _
    rw [ihn]
    unfold nsUpdateBatch nsUpdate
    rw [List.map_replicate, listMean_replicate m c hm, listMean_replicate m _ hm,
      NormState.mk.injEq]
    refine ⟨by ring, by ring, by ring⟩

/-- Counterexample to C5 as stated: with the repository's default decay
weight `ewa = 0.999999`, after `n = 1` update with a constant batch
`c = 100` the derived variance is `900`, not the floor `1e-2` — the
debiasing clamp `max(1 - ewa^n, 1e-5)` is active and skews the debiased
second moment. -/
theorem claims_C5_counterexample :
    0 < (999999 / 1000000 : ℚ) ∧ (999999 / 1000000 : ℚ) < 1 ∧
    nsVar (iterUpdateConst (999999 / 1000000 : ℚ) 100 1 1) = 900 ∧
    (900 : ℚ) ≠ 1 / 100 := by
  refine ⟨by norm_num, by norm_num, ?_, by norm_num⟩
  norm_num [iterUpdateConst, nsUpdateBatch, nsUpdate, listMean, nsVar,
    nsMeanSq, nsMean, List.replicate, max_def]

/-- C5 (amended): starting from the all-zero accumulators with
`ewa ∈ (0,1)`, after `n` updates each using a batch of `m ≥ 1` copies of
the constant `c`, the accumulators are
`(c·(1-ewa^n), c²·(1-ewa^n), 1-ewa^n)` and the derived mean equals
`c·(1-ewa^n) / max(1-ewa^n, 1e-5)`; whenever `1 - ewa^n ≥ 1e-5` (so the
debiasing clamp is inactive — in particular for all large enough `n`) the
derived mean equals `c` exactly and the derived variance equals the floor
`1e-2`. -/
theorem claims_C5 (ewa c : ℚ) (m n : ℕ) (h0 : 0 < ewa) (h1 : ewa < 1)
    (hm : 1 ≤ m) :
    iterUpdateConst ewa c m n =
      ⟨c * (1 - ewa ^ n), c ^ 2 * (1 - ewa ^ n), 1 - ewa ^ n⟩ ∧
    nsMean (iterUpdateConst ewa c m n) =
      c * (1 - ewa ^ n) / max (1 - ewa ^ n) (1 / 100000) ∧
    (1 / 100000 ≤ 1 - ewa ^ n →
      nsMean (iterUpdateConst ewa c m n) = c ∧
      nsVar (iterUpdateConst ewa c m n) = 1 / 100) := by
  have hcl := iterUpdateConst_closed ewa c m hm n
  refine ⟨hcl, by rw [hcl]; rfl, ?_⟩
  intro h
  have ht0 : (0 : ℚ) < 1 - ewa ^ n := lt_of_lt_of_le (by norm_num) h
  have htne : (1 : ℚ) - ewa ^ n ≠ 0 := ne_of_gt ht0
  have hmax : max (1 - ewa ^ n) (1 / 100000 : ℚ) = 1 - ewa ^ n := max_eq_left h
  constructor
  · rw [hcl]
    show c * (1 - ewa ^ n) / max (1 - ewa ^ n) (1 / 100000) = c
    rw [hmax, mul_div_assoc, div_self htne, mul_one]
  · rw [hcl]
    show max (c ^ 2 * (1 - ewa ^ n) / max (1 - ewa ^ n) (1 / 100000) -
      (c * (1 - ewa ^ n) / max (1 - ewa ^ n) (1 / 100000)) ^ 2) (1 / 100) = 1 / 100
    rw [hmax, mul_div_assoc, div_self htne, mul_one, mul_div_assoc,
      div_self htne, mul_one, sub_self]
    exact max_eq_right (by norm_num)

/-- Witness for C5 (amended) at `ewa = 1/2`, `c = 3`, `m = 1`, `n = 1`,
where the clamp is inactive. -/
theorem claims_C5_witness :
    (0 < (1/2 : ℚ) ∧ (1/2 : ℚ) < 1 ∧ 1 ≤ 1) ∧
    (1/100000 ≤ 1 - (1/2 : ℚ) ^ 1) ∧
    (nsMean (iterUpdateConst (1/2 : ℚ) 3 1 1) = 3 ∧
      nsVar (iterUpdateConst (1/2 : ℚ) 3 1 1) = 1/100) :=
  ⟨⟨by norm_num, by norm_num, le_refl 1⟩, by norm_num,
    (claims_C5 (1/2) 3 1 1 (by norm_num) (by norm_num) (le_refl 1)).2.2
      (by norm_num)⟩

theorem ppoGo_none_eq (kl : ℕ → ℕ → ℚ) (M : ℕ) :
    ∀ fuel e, ppoGo none kl M e fuel =
      (List.range fuel).flatMap fun i => epochMinibatches M (e + i) := by
  intro fuel
  induction fuel with
  | zero => intro e; simp [ppoGo]
  | succ f ih =>
    intro e
    rw [ppoGo]
    have hstep : ∀ i, e + 1 + i = e + (i + 1) := fun i => by omega
    simp [klStop, ih (e + 1), List.range_succ_eq_map, List.flatMap_cons,
      List.flatMap_map, Function.comp, hstep]

theorem ppoGo_some_eq (kl : ℕ → ℕ → ℚ) (M : ℕ) (τ : ℚ) :
    ∀ fuel e, ∃ n, n ≤ fuel ∧
      ppoGo (some τ) kl M e fuel =
        ((List.range n).flatMap fun i => epochMinibatches M (e + i)) ∧
      (n = fuel ∨ (0 < n ∧ τ < kl (e + (n - 1)) (M - 1))) ∧
      ∀ i, i + 1 < n → kl (e + i) (M - 1) ≤ τ := by
  intro fuel
  induction fuel with
  | zero =>
    intro e
    exact ⟨0, le_refl 0, by simp [ppoGo], Or.inl rfl,
      fun i hi => absurd hi (by omega)⟩
  | succ f ih =>
    intro e
    by_cases hk : τ < kl e (M - 1)
    · refine ⟨1, by omega, ?_, Or.inr ⟨by omega, by simpa using hk⟩,
        fun i hi => absurd hi (by omega)⟩
      rw [ppoGo]
      rw [show List.range 1 = [0] from rfl]
      simp [klStop, hk, List.flatMap_cons]
    · obtain ⟨n, hn, htr, hstop, hall⟩ := ih (e + 1)
      refine ⟨n + 1, by omega, ?_, ?_, ?_⟩
      · rw [ppoGo]
        have hstep : ∀ i, e + 1 + i = e + (i + 1) := fun i => by omega
        simp [klStop, hk, htr, List.range_succ_eq_map, List.flatMap_cons,
          List.flatMap_map, Function.comp, hstep]
      · rcases hstop with h | ⟨hn0, hkl⟩
        · exact Or.inl (by omega)
        · refine Or.inr ⟨by omega, ?_⟩
          have he : e + 1 + (n - 1) = e + (n + 1 - 1) := by omega
          rwa [he] at hkl
      · intro i hi
        cases i with
        | zero => simpa using not_lt.mp hk
        | succ i2 =>
          have hb := hall i2 (by omega)
          have he : e + 1 + i2 = e + (i2 + 1) := by omega
          rwa [he] at hb

/-- C7: in every iteration the epoch loop (lines 292-359) runs whole epochs
only — each executed epoch processes all `M` minibatches, so the KL check
never cuts an epoch in the middle — and, when a target KL `τ` is
configured, the loop stops right after the first epoch whose LAST
minibatch's approximate KL exceeds `τ` (every earlier epoch's last KL was
`≤ τ`), running all `E = update_epochs` epochs when no epoch triggers;
when `target_kl` is `None`, all `E` epochs always run. -/
theorem claims_C7 (kl : ℕ → ℕ → ℚ) (M E : ℕ) (τ : ℚ) (hM : 1 ≤ M) :
    ppoEpochTrace none kl M E = fullEpochs M E ∧
    ∃ n, n ≤ E ∧ ppoEpochTrace (some τ) kl M E = fullEpochs M n ∧
      (n = E ∨ (0 < n ∧ τ < kl (n - 1) (M - 1))) ∧
      ∀ e, e + 1 < n → kl e (M - 1) ≤ τ := by
  constructor
  · rw [ppoEpochTrace, ppoGo_none_eq kl M E 0, fullEpochs]
    simp
  · obtain ⟨n, hn, htr, hstop, hall⟩ := ppoGo_some_eq kl M τ E 0
    refine ⟨n, hn, ?_, by simpa using hstop, by simpa using hall⟩
    rw [ppoEpochTrace, htr, fullEpochs]
    simp

/-- Witness for C7 with one minibatch per epoch, two epochs, constant zero
KL and target `1`: no early stop, both epochs run. -/
theorem claims_C7_witness :
    1 ≤ 1 ∧
    (ppoEpochTrace none (fun _ _ => (0 : ℚ)) 1 2 = fullEpochs 1 2 ∧
      ∃ n, n ≤ 2 ∧
        ppoEpochTrace (some (1 : ℚ)) (fun _ _ => (0 : ℚ)) 1 2 = fullEpochs 1 n ∧
        (n = 2 ∨ (0 < n ∧ (1 : ℚ) < (fun _ _ => (0 : ℚ)) (n - 1) (1 - 1))) ∧
        ∀ e, e + 1 < n → (fun _ _ => (0 : ℚ)) e (1 - 1) ≤ (1 : ℚ)) :=
  ⟨le_refl 1, claims_C7 (fun _ _ => (0 : ℚ)) 1 2 1 (le_refl 1)⟩

/-- C8: the explained-variance diagnostic (lines 361-363) equals
`1 - Var(returns - values) / Var(returns)` whenever `Var(returns)` is
nonzero, and is the logged NaN (`none`; no exception is raised) exactly
when `Var(returns) = 0`. -/
theorem claims_C8 (returns values : List ℚ) :
    (popVar returns ≠ 0 →
      explainedVar returns values =
        some (1 - popVar (List.zipWith (· - ·) returns values) /
          popVar returns)) ∧
    (explainedVar returns values = none ↔ popVar returns = 0) := by
  by_cases h : popVar returns = 0
  · refine ⟨fun hne => absurd h hne, ?_⟩
    unfold explainedVar
    simp [h]
  · refine ⟨fun _ => ?_, ?_⟩
    · unfold explainedVar
      simp [h]
    · unfold explainedVar
      simp [h]

/-- Witness for C8: a batch with nonzero return variance. -/
theorem claims_C8_witness :
    popVar [(0 : ℚ), 1] ≠ 0 ∧
    explainedVar [(0 : ℚ), 1] [0, 0] =
      some (1 - popVar (List.zipWith (· - ·) [(0 : ℚ), 1] [0, 0]) /
        popVar [(0 : ℚ), 1]) := by
  have h : popVar [(0 : ℚ), 1] ≠ 0 := by norm_num [popVar, listMean]
  exact ⟨h, (claims_C8 [0, 1] [0, 0]).1 h⟩

/-- C9: at a step where at least one slot's `next_done` flag is set, the
flushed summaries are the flag-weighted means over the slots of the
post-accumulation reward and length sums — so the summary includes the
reward earned at that very step, and the length counts the increment done
before the step — and immediately afterwards the flagged slots'
accumulators are exactly zero while the unflagged slots keep their
accumulated values. -/
theorem claims_C9 {N : ℕ} (st : EpState N) (reward : Fin N → ℚ)
    (nd : Fin N → Bool) (h : ∃ i, nd i = true) :
    (epStep st reward nd).2 =
      some ((∑ i, (st.rew i + reward i) * flagQ (nd i)) / (N : ℚ),
        (∑ i, (st.len i + 1) * flagQ (nd i)) / (N : ℚ)) ∧
    (∀ i, nd i = true →
      (epStep st reward nd).1.rew i = 0 ∧ (epStep st reward nd).1.len i = 0) ∧
    (∀ i, nd i = false →
      (epStep st reward nd).1.rew i = st.rew i + reward i ∧
      (epStep st reward nd).1.len i = st.len i + 1) := by
  unfold epStep
  rw [if_pos h]
  exact ⟨rfl, fun i hi => ⟨by simp [hi], by simp [hi]⟩,
    fun i hi => ⟨by simp [hi], by simp [hi]⟩⟩

/-- Witness for C9: one slot that finishes an episode with accumulated
reward `5`, step reward `2` and accumulated length `3`: the flush reports
`(7, 4)` and the accumulators are zeroed. -/
theorem claims_C9_witness :
    (∃ i : Fin 1, (fun _ : Fin 1 => true) i = true) ∧
    ((epStep (⟨fun _ => 5, fun _ => 3⟩ : EpState 1) (fun _ => 2)
        fun _ => true).2 = some (7, 4) ∧
      (epStep (⟨fun _ => 5, fun _ => 3⟩ : EpState 1) (fun _ => 2)
          fun _ => true).1.rew 0 = 0 ∧
      (epStep (⟨fun _ => 5, fun _ => 3⟩ : EpState 1) (fun _ => 2)
          fun _ => true).1.len 0 = 0) := by
  have h : ∃ i : Fin 1, (fun _ : Fin 1 => true) i = true := ⟨0, rfl⟩
  obtain ⟨h1, h2, _⟩ :=
    claims_C9 (⟨fun _ => 5, fun _ => 3⟩ : EpState 1) (fun _ => 2)
      (fun _ => true) h
  refine ⟨h, ?_, (h2 0 rfl).1, (h2 0 rfl).2⟩
  rw [h1]
  norm_num [flagQ, Fin.sum_univ_one]

theorem huber_loss_eq_ite (e d : ℚ) :
    huber_loss e d = if |e| ≤ d then e ^ 2 / 2 else d * (|e| - d / 2) := by
  unfold huber_loss
  by_cases h : |e| ≤ d
  · rw [if_pos h, if_pos h, if_neg (not_lt.mpr h)]
    ring
  · rw [if_neg h, if_neg h, if_pos (not_le.mp h)]
    ring

theorem huber_loss_mono (d a b : ℚ) (hd : 0 ≤ d) (h : |a| ≤ |b|) :
    huber_loss a d ≤ huber_loss b d := by
  rw [huber_loss_eq_ite, huber_loss_eq_ite]
  by_cases hb : |b| ≤ d
  · rw [if_pos (le_trans h hb), if_pos hb]
    nlinarith [sq_abs a, sq_abs b, abs_nonneg a]
  · rw [if_neg hb]
    by_cases ha : |a| ≤ d
    · rw [if_pos ha]
      nlinarith [sq_abs a, abs_nonneg a, not_le.mp hb]
    · rw [if_neg ha]
      nlinarith [not_le.mp ha, not_le.mp hb]

theorem abs_torchClamp_le (x c : ℚ) (hc : 0 ≤ c) :
    |torchClamp x (-c) c| ≤ |x| := by
  rw [abs_le]
  unfold torchClamp
  constructor
  · refine le_min (le_max_of_le_left (neg_abs_le x)) ?_
    exact le_trans (neg_nonpos_of_nonneg (abs_nonneg x)) hc
  · exact min_le_of_left_le
      (max_le (le_abs_self x)
        (le_trans (neg_nonpos_of_nonneg hc) (abs_nonneg x)))

theorem vLossElem_mono (useHuber : Bool) (d a b : ℚ) (hd : 0 ≤ d)
    (h : |a| ≤ |b|) : vLossElem useHuber d a ≤ vLossElem useHuber d b := by
  cases useHuber
  · show 1 / 2 * a ^ 2 ≤ 1 / 2 * b ^ 2
    nlinarith [sq_abs a, sq_abs b, abs_nonneg a]
  · exact huber_loss_mono d a b hd h

/-- C10: with value-loss clipping on, the clipped prediction (lines
336-340) displaces the target by `clamp(newvalue - target, -c, c)`, so the
clipped error is that clamp; since both the Huber and the squared loss are
nondecreasing in the absolute error and clamping never increases it, the
elementwise clipped loss never exceeds the unclipped one, their elementwise
maximum (line 345) is the unclipped loss, and the logged value-clip
fraction (line 344) is always zero. -/
theorem claims_C10 (useHuber : Bool) (d c nv tv : ℚ) (elems : List (ℚ × ℚ))
    (hd : 0 ≤ d) (hc : 0 ≤ c) :
    vClipped tv nv c - tv = torchClamp (nv - tv) (-c) c ∧
    vLossElem useHuber d (vClipped tv nv c - tv) ≤
      vLossElem useHuber d (nv - tv) ∧
    max (vLossElem useHuber d (nv - tv))
        (vLossElem useHuber d (vClipped tv nv c - tv)) =
      vLossElem useHuber d (nv - tv) ∧
    valueClipFrac useHuber d c elems = 0 := by
  have key : ∀ x : ℚ,
      vLossElem useHuber d (torchClamp x (-c) c) ≤ vLossElem useHuber d x :=
    fun x => vLossElem_mono useHuber d _ x hd (abs_torchClamp_le x c hc)
  have hdiff : ∀ a b : ℚ, vClipped b a c - b = torchClamp (a - b) (-c) c := by
    intro a b
    unfold vClipped
    ring
  refine ⟨hdiff nv tv, ?_, ?_, ?_⟩
  · rw [hdiff nv tv]
    exact key _
  · rw [hdiff nv tv]
    exact max_eq_left (key _)
  · unfold valueClipFrac listMean
    rw [List.sum_eq_zero, zero_div]
    intro x hx
    obtain ⟨p, _, hp⟩ := List.mem_map.mp hx
    rw [← hp, if_neg]
    rw [hdiff p.1 p.2]
    exact not_lt.mpr (key _)

/-- Witness for C10 with the repository defaults `huber_delta = 10`,
`clip_coef = 0.2` and a one-element minibatch. -/
theorem claims_C10_witness :
    ((0 : ℚ) ≤ 10 ∧ (0 : ℚ) ≤ 1/5) ∧
    (vClipped 0 1 (1/5) - 0 = torchClamp (1 - 0) (-(1/5)) (1/5) ∧
      vLossElem true 10 (vClipped 0 1 (1/5) - 0) ≤ vLossElem true 10 (1 - 0) ∧
      max (vLossElem true 10 (1 - 0))
          (vLossElem true 10 (vClipped 0 1 (1/5) - 0)) =
        vLossElem true 10 (1 - 0) ∧
      valueClipFrac true 10 (1/5) [(1, 0)] = 0) :=
  ⟨⟨by norm_num, by norm_num⟩,
    claims_C10 true 10 (1/5) 1 0 [(1, 0)] (by norm_num) (by norm_num)⟩

end MappoMpe
